import Mathlib

/-!
# Verification of the PiFind pattern-search core

This file gives a shallow embedding, in Lean 4, of the algorithmic core of
the PiFind repository (pifind.py, with the palette check of haystack.py):

* color primitives: coldist, colavg (with the Python banker rounding of a
  nonnegative rational modelled exactly on naturals);
* the greedy color clustering colorfamilies, the sieve sievecolors and the
  reduction loop reducecolors (the while loop is embedded with an explicit
  fuel that is proved sufficient);
* the score engine: the 256 x numcol joint histogram bytarr and the
  mismatch/muddle count countmismatch;
* the search loop: the two parity windows (deques of maximal length numpix),
  the per-nibble step, the best tracker and the deferred interrupt flag.

Python dictionaries are embedded as association lists in insertion order;
Counter.most_common is embedded as a stable descending insertion sort.
Machine integers are Nat/Int with explicit arithmetic.
-/

set_option maxRecDepth 40000
set_option maxHeartbeats 1000000

/-- RGB color triple, components are naturals (0..255 in actual images). -/
abbrev Color : Type := Nat × Nat × Nat

/-- Absolute difference of two naturals, used to express a squared signed
difference without leaving Nat. -/
def natAbsDiff (a b : Nat) : Nat := (a - b) + (b - a)

/-- Embeds coldist of pifind.py: sum of squared componentwise differences
of two RGB triples (the Python sum((a-b)**2 for a,b in zip(col1, col2))). -/
def coldist (col1 col2 : Color) : Nat :=
  natAbsDiff col1.1 col2.1 * natAbsDiff col1.1 col2.1
    + natAbsDiff col1.2.1 col2.2.1 * natAbsDiff col1.2.1 col2.2.1
    + natAbsDiff col1.2.2 col2.2.2 * natAbsDiff col1.2.2 col2.2.2

/-- Embeds the Python round applied to the exact nonnegative rational a / b:
round half to even (banker rounding).  Returns 0 when b = 0 (that case is
never reached by the callers below, which guard the denominator). -/
def roundHalfEvenDiv (a b : Nat) : Nat :=
  if b = 0 then 0
  else
    let q := a / b
    let r := a % b
    if 2 * r < b then q
    else if b < 2 * r then q + 1
    else if q % 2 = 0 then q else q + 1

/-- Embeds colavg of pifind.py: a dictionary of RGB triple to count is an
association list; the result is the weighted componentwise average, rounded
with the Python round, and (0, 0, 0) when the total count is zero. -/
def colavg (wts : List (Color × Nat)) : Color :=
  let totct := (wts.map Prod.snd).sum
  if totct = 0 then (0, 0, 0)
  else
    (roundHalfEvenDiv ((wts.map (fun q => q.1.1 * q.2)).sum) totct,
     roundHalfEvenDiv ((wts.map (fun q => q.1.2.1 * q.2)).sum) totct,
     roundHalfEvenDiv ((wts.map (fun q => q.1.2.2 * q.2)).sum) totct)

/-- Embeds the Python max over a nonempty list of naturals (and 0 on the
empty list, which the callers never pass). -/
def listmax : List Nat → Nat
  | [] => 0
  | x :: xs => xs.foldl Nat.max x

/-- Embeds the Python min over a nonempty list of naturals (and 0 on the
empty list, which the callers never pass). -/
def listmin : List Nat → Nat
  | [] => 0
  | x :: xs => xs.foldl Nat.min x

theorem listmax_eq_foldr (l : List Nat) : listmax l = l.foldr Nat.max 0 := by
  cases l with
  | nil => rfl
  | cons x xs =>
    show xs.foldl Nat.max x = Nat.max x (xs.foldr Nat.max 0)
    induction xs generalizing x with
    | nil => simp [List.foldl, List.foldr]
    | cons y ys ih =>
      simp only [List.foldl, List.foldr]
      rw [ih (Nat.max x y)]
      exact Nat.max_assoc x y (List.foldr Nat.max 0 ys)

theorem le_listmax_of_mem {l : List Nat} {x : Nat} (hx : x ∈ l) : x ≤ listmax l := by
  rw [listmax_eq_foldr]
  induction l with
  | nil => cases hx
  | cons y ys ih =>
    rcases List.mem_cons.mp hx with h | h
    · subst h; exact Nat.le_max_left _ _
    · exact le_trans (ih h) (Nat.le_max_right _ _)

theorem listmax_le {l : List Nat} {m : Nat} (h : ∀ x ∈ l, x ≤ m) : listmax l ≤ m := by
  rw [listmax_eq_foldr]
  induction l with
  | nil => exact Nat.zero_le m
  | cons y ys ih =>
    exact Nat.max_le.mpr ⟨h y (List.mem_cons_self y ys), ih fun x hx => h x (List.mem_cons_of_mem y hx)⟩

theorem listmax_le_sum (l : List Nat) : listmax l ≤ l.sum := by
  refine listmax_le fun x hx => List.single_le_sum (fun _ _ => Nat.zero_le _) x hx

theorem listmin_eq_zero_iff (l : List Nat) : listmin l = 0 ↔ l = [] ∨ 0 ∈ l := by
  cases l with
  | nil => simp [listmin]
  | cons x xs =>
    show xs.foldl Nat.min x = 0 ↔ _
    simp only [List.cons_ne_nil, false_or]
    induction xs generalizing x with
    | nil => simp [List.foldl, eq_comm]
    | cons y ys ih =>
      simp only [List.foldl]
      rw [ih (Nat.min x y)]
      simp [Nat.min_eq_zero_iff, List.mem_cons, eq_comm (a := (0 : Nat))]
      tauto

/-! ## Score engine: joint histogram and mismatch count -/

/-- Embeds countmismatch of pifind.py: fold over the 256 rows of the joint
histogram, accumulating the mismatch count (row sum minus row maximum) and
the muddle count (row sum of the rows with no zero entry). -/
def countmismatch (arr : List (List Nat)) : Nat × Nat :=
  arr.foldl
    (fun acc colcounts =>
      let totpix := colcounts.sum
      (acc.1 + (totpix - listmax colcounts),
       acc.2 + if listmin colcounts ≠ 0 then totpix else 0))
    (0, 0)

/-- One iteration of the histogram-filling loop of pifind.py, the statement
written there as an in-place increment of row b, column p.  An index out of
range leaves the array unchanged (Python would raise there; the callers only
ever pass b < 256 and p < numcol). -/
def bytarrUpd (arr : List (List Nat)) (b p : Nat) : List (List Nat) :=
  arr.set b ((arr.getD b []).set p ((arr.getD b []).getD p 0 + 1))

/-- Embeds the histogram construction of the search loop of pifind.py:
a 256 x numcol table of zeros, then one increment per position of the
window zipped with the pattern. -/
def bytarr (numcol : Nat) (W P : List Nat) : List (List Nat) :=
  (W.zip P).foldl (fun arr q => bytarrUpd arr q.1 q.2)
    (List.replicate 256 (List.replicate numcol 0))

/-- Number of positions where the window byte is b and the pattern family
is p; the specification value of one histogram cell. -/
def countBP (W P : List Nat) (b p : Nat) : Nat :=
  ((W.zip P).filter (fun q => q.1 == b && q.2 == p)).length

theorem getD_of_lt (l : List α) (i : Nat) (d : α) (h : i < l.length) :
    l.getD i d = l[i] := by
  simp [List.getD_eq_getElem?_getD, List.getElem?_eq_getElem h]

theorem getD_set_self (l : List α) (i : Nat) (a d : α) (h : i < l.length) :
    (l.set i a).getD i d = a := by
  simp [List.getD_eq_getElem?_getD, List.getElem?_set_self h]

theorem getD_set_ne (l : List α) {i j : Nat} (a d : α) (h : i ≠ j) :
    (l.set i a).getD j d = l.getD j d := by
  simp [List.getD_eq_getElem?_getD, List.getElem?_set_ne h]

theorem getD_mem (l : List α) (i : Nat) (d : α) (h : i < l.length) :
    l.getD i d ∈ l := by
  rw [getD_of_lt l i d h]
  exact List.getElem_mem h

theorem bytarrUpd_length (arr : List (List Nat)) (b p : Nat) :
    (bytarrUpd arr b p).length = arr.length := List.length_set ..

theorem bytarrUpd_rows {arr : List (List Nat)} {numcol : Nat}
    (hrows : ∀ r ∈ arr, r.length = numcol) (b p : Nat) :
    ∀ r ∈ bytarrUpd arr b p, r.length = numcol := by
  intro r hr
  by_cases hb : b < arr.length
  · rcases List.mem_or_eq_of_mem_set hr with h | h
    · exact hrows r h
    · subst h
      rw [List.length_set]
      exact hrows _ (getD_mem arr b [] hb)
  · unfold bytarrUpd at hr
    rw [List.set_eq_of_length_le (Nat.le_of_not_lt hb)] at hr
    exact hrows r hr

theorem bytarrUpd_entry {numcol : Nat} (arr : List (List Nat))
    (hlen : arr.length = 256) (hrows : ∀ r ∈ arr, r.length = numcol)
    (q : Nat × Nat) {b p : Nat} (hb : b < 256) (hp : p < numcol) :
    ((bytarrUpd arr q.1 q.2).getD b []).getD p 0
      = (arr.getD b []).getD p 0 + (if q.1 = b ∧ q.2 = p then 1 else 0) := by
  by_cases h1 : q.1 = b
  · subst h1
    rw [bytarrUpd, getD_set_self _ _ _ _ (by omega)]
    by_cases h2 : q.2 = p
    · subst h2
      have hrow : (arr.getD q.1 []).length = numcol :=
        hrows _ (getD_mem arr q.1 [] (by omega))
      rw [getD_set_self _ _ _ _ (by omega)]
      simp
    · rw [getD_set_ne _ _ _ h2]
      simp [h2]
  · rw [bytarrUpd, getD_set_ne _ _ _ h1]
    simp [h1]

theorem bytarr_fold_entry (numcol : Nat) (L : List (Nat × Nat)) :
    ∀ (arr : List (List Nat)), arr.length = 256 →
      (∀ r ∈ arr, r.length = numcol) → ∀ {b p : Nat}, b < 256 → p < numcol →
      ((L.foldl (fun a q => bytarrUpd a q.1 q.2) arr).getD b []).getD p 0
        = (arr.getD b []).getD p 0
            + (L.filter (fun q => q.1 == b && q.2 == p)).length := by
  induction L with
  | nil => intro arr _ _ b p _ _; simp
  | cons q L ih =>
    intro arr hlen hrows b p hb hp
    have hlen1 : (bytarrUpd arr q.1 q.2).length = 256 := by
      rw [bytarrUpd_length]; exact hlen
    have hrows1 := bytarrUpd_rows hrows q.1 q.2
    simp only [List.foldl_cons]
    rw [ih _ hlen1 hrows1 hb hp, bytarrUpd_entry arr hlen hrows q hb hp,
      List.filter_cons]
    by_cases hq : q.1 = b ∧ q.2 = p
    · simp only [hq.1, hq.2, beq_self_eq_true, Bool.and_self, if_pos rfl]
      simp [hq]
      omega
    · have : (q.1 == b && q.2 == p) = false := by
        simp only [Bool.and_eq_false_iff, beq_eq_false_iff_ne, ne_eq]
        tauto
      simp [this, hq]

theorem bytarr_fold_shape (numcol : Nat) (L : List (Nat × Nat)) :
    ∀ (arr : List (List Nat)),
      (L.foldl (fun a q => bytarrUpd a q.1 q.2) arr).length = arr.length
      ∧ ((∀ r ∈ arr, r.length = numcol) →
          ∀ r ∈ L.foldl (fun a q => bytarrUpd a q.1 q.2) arr, r.length = numcol) := by
  induction L with
  | nil => intro arr; exact ⟨rfl, fun h => h⟩
  | cons q L ih =>
    intro arr
    simp only [List.foldl_cons]
    refine ⟨?_, ?_⟩
    · rw [(ih (bytarrUpd arr q.1 q.2)).1, bytarrUpd_length]
    · intro hrows
      exact (ih (bytarrUpd arr q.1 q.2)).2 (bytarrUpd_rows hrows q.1 q.2)

theorem bytarr_length (numcol : Nat) (W P : List Nat) :
    (bytarr numcol W P).length = 256 := by
  unfold bytarr
  rw [(bytarr_fold_shape numcol (W.zip P) _).1, List.length_replicate]

theorem bytarr_rows (numcol : Nat) (W P : List Nat) :
    ∀ r ∈ bytarr numcol W P, r.length = numcol := by
  unfold bytarr
  refine (bytarr_fold_shape numcol (W.zip P) _).2 ?_
  intro r hr
  rw [List.eq_of_mem_replicate hr, List.length_replicate]

theorem bytarr_entry (numcol : Nat) (W P : List Nat) {b p : Nat}
    (hb : b < 256) (hp : p < numcol) :
    ((bytarr numcol W P).getD b []).getD p 0 = countBP W P b p := by
  unfold bytarr countBP
  rw [bytarr_fold_entry numcol (W.zip P) _ (List.length_replicate 256 _) ?_ hb hp]
  · rw [getD_of_lt _ b [] (by rw [List.length_replicate]; exact hb),
      List.getElem_replicate,
      getD_of_lt _ p 0 (by rw [List.length_replicate]; exact hp),
      List.getElem_replicate, Nat.zero_add]
  · intro r hr
    rw [List.eq_of_mem_replicate hr, List.length_replicate]

theorem bytarr_row (numcol : Nat) (W P : List Nat) {b : Nat} (hb : b < 256) :
    (bytarr numcol W P).getD b [] = (List.range numcol).map (countBP W P b) := by
  have hrow : ((bytarr numcol W P).getD b []).length = numcol :=
    bytarr_rows numcol W P _ (getD_mem _ b [] (by rw [bytarr_length]; exact hb))
  refine List.ext_getElem (by rw [hrow, List.length_map, List.length_range]) ?_
  intro p h1 h2
  have hp : p < numcol := by rw [hrow] at h1; exact h1
  rw [← getD_of_lt _ p 0 h1, bytarr_entry numcol W P hb hp,
    List.getElem_map, List.getElem_range]

theorem bytarr_eq_map (numcol : Nat) (W P : List Nat) :
    bytarr numcol W P
      = (List.range 256).map (fun b => (List.range numcol).map (countBP W P b)) := by
  refine List.ext_getElem (by rw [bytarr_length, List.length_map, List.length_range]) ?_
  intro b h1 h2
  have hb : b < 256 := by rw [bytarr_length] at h1; exact h1
  rw [← getD_of_lt _ b [] h1, bytarr_row numcol W P hb,
    List.getElem_map, List.getElem_range]

theorem countmismatch_fold (arr : List (List Nat)) :
    ∀ a b : Nat,
      arr.foldl
        (fun acc colcounts =>
          let totpix := colcounts.sum
          (acc.1 + (totpix - listmax colcounts),
           acc.2 + if listmin colcounts ≠ 0 then totpix else 0)) (a, b)
      = (a + ((arr.map (fun r => r.sum - listmax r)).sum),
         b + ((arr.map (fun r => if listmin r ≠ 0 then r.sum else 0)).sum)) := by
  induction arr with
  | nil => intro a b; simp
  | cons r rs ih =>
    intro a b
    simp only [List.foldl_cons]
    rw [ih, List.map_cons, List.map_cons, List.sum_cons, List.sum_cons,
      Prod.mk.injEq]
    exact ⟨by omega, by omega⟩

theorem countmismatch_eq (arr : List (List Nat)) :
    countmismatch arr
      = (((arr.map (fun r => r.sum - listmax r)).sum),
         ((arr.map (fun r => if listmin r ≠ 0 then r.sum else 0)).sum)) := by
  unfold countmismatch
  rw [countmismatch_fold arr 0 0]
  simp

theorem list_range_map_sum (n : Nat) (f : Nat → Nat) :
    ((List.range n).map f).sum = ∑ b ∈ Finset.range n, f b := by
  induction n with
  | zero => simp
  | succ m ih => rw [List.range_succ, Finset.sum_range_succ, List.map_append]; simp [ih]

/-! ## Claim C1: zero mismatch count characterizes byte-to-family maps -/

theorem countmismatch_fst_bytarr (numcol : Nat) (W P : List Nat) :
    (countmismatch (bytarr numcol W P)).1
      = ∑ b ∈ Finset.range 256,
          (((List.range numcol).map (countBP W P b)).sum
            - listmax ((List.range numcol).map (countBP W P b))) := by
  rw [bytarr_eq_map, countmismatch_eq, List.map_map]
  exact list_range_map_sum 256 _

theorem countmismatch_snd_bytarr (numcol : Nat) (W P : List Nat) :
    (countmismatch (bytarr numcol W P)).2
      = ∑ b ∈ Finset.range 256,
          (if listmin ((List.range numcol).map (countBP W P b)) ≠ 0
           then ((List.range numcol).map (countBP W P b)).sum else 0) := by
  rw [bytarr_eq_map, countmismatch_eq]
  simp only [List.map_map]
  exact list_range_map_sum 256 _

/-- Consistency of a single histogram row: the byte b maps to at most one
family among the columns of the row. -/
def famConsistent (numcol : Nat) (W P : List Nat) (b : Nat) : Prop :=
  ∀ p p', p < numcol → p' < numcol →
    0 < countBP W P b p → 0 < countBP W P b p' → p = p'

theorem countBP_pos_iff (W P : List Nat) (b p : Nat) :
    0 < countBP W P b p ↔ ∃ q ∈ W.zip P, q.1 = b ∧ q.2 = p := by
  unfold countBP
  rw [List.length_pos_iff_exists_mem]
  constructor
  · rintro ⟨q, hq⟩
    have := List.mem_filter.mp hq
    refine ⟨q, this.1, ?_⟩
    have h2 := this.2
    simp only [Bool.and_eq_true, beq_iff_eq] at h2
    exact h2
  · rintro ⟨q, hq, h1, h2⟩
    refine ⟨q, List.mem_filter.mpr ⟨hq, ?_⟩⟩
    simp only [Bool.and_eq_true, beq_iff_eq]
    exact ⟨h1, h2⟩

theorem pair_le_range_sum (n : Nat) (f : Nat → Nat) {i j : Nat}
    (hi : i < n) (hj : j < n) (hne : i ≠ j) :
    f i + f j ≤ ∑ k ∈ Finset.range n, f k := by
  have hmem : i ∈ Finset.range n := Finset.mem_range.mpr hi
  rw [← Finset.add_sum_erase _ f hmem]
  have h2 : f j ≤ ∑ k ∈ (Finset.range n).erase i, f k :=
    Finset.single_le_sum (fun k _ => Nat.zero_le _)
      (Finset.mem_erase.mpr ⟨fun h => hne h.symm, Finset.mem_range.mpr hj⟩)
  omega

theorem rowterm_zero_iff (numcol : Nat) (W P : List Nat) (b : Nat) :
    ((List.range numcol).map (countBP W P b)).sum
        - listmax ((List.range numcol).map (countBP W P b)) = 0
      ↔ famConsistent numcol W P b := by
  have hsum : ((List.range numcol).map (countBP W P b)).sum
      = ∑ k ∈ Finset.range numcol, countBP W P b k := list_range_map_sum _ _
  constructor
  · intro h p p' hp hp' hpos hpos'
    by_contra hne
    have hle := Nat.le_of_sub_eq_zero h
    have hbound : ∀ x ∈ (List.range numcol).map (countBP W P b),
        x + 1 ≤ ((List.range numcol).map (countBP W P b)).sum := by
      intro x hx
      obtain ⟨k, hk, rfl⟩ := List.mem_map.mp hx
      have hklt : k < numcol := List.mem_range.mp hk
      by_cases hkp : k = p
      · subst hkp
        have := pair_le_range_sum numcol (countBP W P b) hklt hp' hne
        omega
      · have := pair_le_range_sum numcol (countBP W P b) hklt hp hkp
        omega
    have hmax : listmax ((List.range numcol).map (countBP W P b)) + 1
        ≤ ((List.range numcol).map (countBP W P b)).sum := by
      have hone : 0 < ((List.range numcol).map (countBP W P b)).sum := by
        have hmemp : countBP W P b p ∈ (List.range numcol).map (countBP W P b) :=
          List.mem_map.mpr ⟨p, List.mem_range.mpr hp, rfl⟩
        have := List.single_le_sum (l := (List.range numcol).map (countBP W P b))
          (fun _ _ => Nat.zero_le _) _ hmemp
        omega
      have := listmax_le (l := (List.range numcol).map (countBP W P b))
        (m := ((List.range numcol).map (countBP W P b)).sum - 1)
        (fun x hx => by have := hbound x hx; omega)
      omega
    omega
  · intro hcons
    refine Nat.sub_eq_zero_of_le ?_
    by_cases hall : ∀ p, p < numcol → countBP W P b p = 0
    · have : ((List.range numcol).map (countBP W P b)).sum = 0 := by
        refine List.sum_eq_zero ?_
        intro x hx
        obtain ⟨k, hk, rfl⟩ := List.mem_map.mp hx
        exact hall k (List.mem_range.mp hk)
      omega
    · push_neg at hall
      obtain ⟨p0, hp0, hpos0⟩ := hall
      have hsingle : ∑ k ∈ Finset.range numcol, countBP W P b k = countBP W P b p0 := by
        refine Finset.sum_eq_single_of_mem p0 (Finset.mem_range.mpr hp0) ?_
        intro k hk hkne
        by_contra hkpos
        exact hkne (hcons k p0 (Finset.mem_range.mp hk) hp0
          (Nat.pos_of_ne_zero hkpos) (Nat.pos_of_ne_zero hpos0))
      have hmem : countBP W P b p0 ∈ (List.range numcol).map (countBP W P b) :=
        List.mem_map.mpr ⟨p0, List.mem_range.mpr hp0, rfl⟩
      have := le_listmax_of_mem hmem
      omega

/-- C1: for a pattern P and a window W of the same length, the mismatch
count computed by countmismatch over the 256 x numcol joint histogram
bytarr is zero exactly when some total map f from byte values to family
indices satisfies f (W i) = P i at every position (positions are presented
as the pairs of W zipped with P, which covers all of them since the lengths
agree). -/
theorem c1_mismatch_zero_iff (numcol : Nat) (W P : List Nat)
    (hlen : W.length = P.length)
    (hW : ∀ b ∈ W, b < 256) (hP : ∀ p ∈ P, p < numcol) :
    (countmismatch (bytarr numcol W P)).1 = 0
      ↔ ∃ f : Nat → Nat, ∀ q ∈ W.zip P, f q.1 = q.2 := by
  rw [countmismatch_fst_bytarr, Finset.sum_eq_zero_iff]
  constructor
  · intro h
    have hcons : ∀ b, b < 256 → famConsistent numcol W P b := fun b hb =>
      (rowterm_zero_iff numcol W P b).mp (h b (Finset.mem_range.mpr hb))
    classical
    refine ⟨fun b => if hex : ∃ p, 0 < countBP W P b p then hex.choose else 0, ?_⟩
    rintro ⟨b, p⟩ hq
    have hmem := List.of_mem_zip hq
    have hb : b < 256 := hW b hmem.1
    have hp : p < numcol := hP p hmem.2
    have hpos : 0 < countBP W P b p :=
      (countBP_pos_iff W P b p).mpr ⟨(b, p), hq, rfl, rfl⟩
    have hex : ∃ p', 0 < countBP W P b p' := ⟨p, hpos⟩
    simp only [dif_pos hex]
    have hc := hex.choose_spec
    have hclt : hex.choose < numcol := by
      obtain ⟨q', hq', h1, h2⟩ := (countBP_pos_iff W P b hex.choose).mp hc
      have := (List.of_mem_zip (by exact hq' : (q'.1, q'.2) ∈ W.zip P)).2
      rw [h2] at this
      exact hP _ this
    exact hcons b hb _ p hclt hp hc hpos
  · rintro ⟨f, hf⟩ b hbmem
    refine (rowterm_zero_iff numcol W P b).mpr ?_
    intro p p' hp hp' hpos hpos'
    obtain ⟨q, hq, hq1, hq2⟩ := (countBP_pos_iff W P b p).mp hpos
    obtain ⟨q', hq', hq1', hq2'⟩ := (countBP_pos_iff W P b p').mp hpos'
    have e1 := hf q hq
    have e2 := hf q' hq'
    rw [hq1, hq2] at e1
    rw [hq1', hq2'] at e2
    omega

/-- Witness for C1 at a concrete window and pattern. -/
theorem c1_mismatch_zero_iff_witness :
    ([0].length = ([0] : List Nat).length) ∧ (∀ b ∈ [(0 : Nat)], b < 256)
      ∧ (∀ p ∈ [(0 : Nat)], p < 1)
      ∧ ((countmismatch (bytarr 1 [0] [0])).1 = 0
          ↔ ∃ f : Nat → Nat, ∀ q ∈ ([0] : List Nat).zip [0], f q.1 = q.2) :=
  ⟨rfl, by decide, by decide,
    c1_mismatch_zero_iff 1 [0] [0] rfl (by decide) (by decide)⟩

/-! ## Claim C9: score invariance under relabeling of family indices -/

theorem countBP_map_perm (numcol : Nat) (W P : List Nat) (tau tauinv : Nat → Nat)
    (hli : ∀ p, p < numcol → tauinv (tau p) = p)
    (hri : ∀ p, p < numcol → tau (tauinv p) = p)
    (hP : ∀ p ∈ P, p < numcol) {b p : Nat} (hp : p < numcol) :
    countBP W (P.map tau) b p = countBP W P b (tauinv p) := by
  unfold countBP
  rw [List.zip_map_right, List.filter_map, List.length_map]
  apply congrArg List.length
  apply List.filter_congr
  rintro ⟨x, y⟩ hq
  have hy : y < numcol := hP y (List.of_mem_zip hq).2
  simp only [Function.comp, Prod.map, id]
  by_cases hxy : tau y = p
  · have h2 : y = tauinv p := by rw [← hxy, hli y hy]
    have e1 : (tau y == p) = true := beq_iff_eq.mpr hxy
    have e2 : (y == tauinv p) = true := beq_iff_eq.mpr h2
    rw [e1, e2]
  · have h2 : y ≠ tauinv p := fun h => hxy (by rw [h, hri p hp])
    have e1 : (tau y == p) = false := beq_eq_false_iff_ne.mpr hxy
    have e2 : (y == tauinv p) = false := beq_eq_false_iff_ne.mpr h2
    rw [e1, e2]

theorem range_map_perm (n : Nat) (g ginv : Nat → Nat)
    (hg : ∀ p, p < n → g p < n)
    (hgi : ∀ p, p < n → ginv (g p) = p) :
    List.Perm ((List.range n).map g) (List.range n) := by
  have hnodup : ((List.range n).map g).Nodup := by
    refine List.Nodup.map_on ?_ (List.nodup_range n)
    intro x hx y hy hxy
    have hx' := List.mem_range.mp hx
    have hy' := List.mem_range.mp hy
    rw [← hgi x hx', hxy, hgi y hy']
  have hsub : (List.range n).map g ⊆ List.range n := by
    intro x hx
    obtain ⟨p, hp, rfl⟩ := List.mem_map.mp hx
    exact List.mem_range.mpr (hg p (List.mem_range.mp hp))
  exact (hnodup.subperm hsub).perm_of_length_le (by simp)

theorem listmax_perm {l1 l2 : List Nat} (h : List.Perm l1 l2) :
    listmax l1 = listmax l2 :=
  le_antisymm
    (listmax_le fun x hx => le_listmax_of_mem (h.mem_iff.mp hx))
    (listmax_le fun x hx => le_listmax_of_mem (h.mem_iff.mpr hx))

theorem listmin_zero_perm {l1 l2 : List Nat} (h : List.Perm l1 l2) :
    listmin l1 = 0 ↔ listmin l2 = 0 := by
  rw [listmin_eq_zero_iff, listmin_eq_zero_iff]
  have hlen := h.length_eq
  have hmem := h.mem_iff (a := 0)
  constructor
  · rintro (rfl | h0)
    · left
      have : l2.length = 0 := by simpa using hlen.symm
      exact List.eq_nil_of_length_eq_zero this
    · exact Or.inr (hmem.mp h0)
  · rintro (rfl | h0)
    · left
      have : l1.length = 0 := by simpa using hlen
      exact List.eq_nil_of_length_eq_zero this
    · exact Or.inr (hmem.mpr h0)

/-- C9: the score (mismatch count, muddle count) of a window is unchanged
when a permutation of the family indices 0..numcol-1 is applied to every
entry of the pattern (and, simultaneously, to the family list, which the
score engine does not consult: bytarr and countmismatch depend only on the
window bytes and the pattern indices).  The permutation is given as a pair
of mutually inverse maps on the index range. -/
theorem c9_score_relabel_invariant (numcol : Nat) (W P : List Nat)
    (tau tauinv : Nat → Nat)
    (htau : ∀ p, p < numcol → tau p < numcol)
    (htauinv : ∀ p, p < numcol → tauinv p < numcol)
    (hli : ∀ p, p < numcol → tauinv (tau p) = p)
    (hri : ∀ p, p < numcol → tau (tauinv p) = p)
    (hP : ∀ p ∈ P, p < numcol) :
    countmismatch (bytarr numcol W (P.map tau))
      = countmismatch (bytarr numcol W P) := by
  have hrow : ∀ b : Nat,
      List.Perm ((List.range numcol).map (countBP W (P.map tau) b))
        ((List.range numcol).map (countBP W P b)) := by
    intro b
    have h1 : (List.range numcol).map (countBP W (P.map tau) b)
        = ((List.range numcol).map tauinv).map (countBP W P b) := by
      rw [List.map_map]
      refine List.map_congr_left ?_
      intro p hp
      exact countBP_map_perm numcol W P tau tauinv hli hri hP (List.mem_range.mp hp)
    rw [h1]
    exact (range_map_perm numcol tauinv tau htauinv hri).map (countBP W P b)
  rw [Prod.ext_iff]
  constructor
  · rw [countmismatch_fst_bytarr, countmismatch_fst_bytarr]
    refine Finset.sum_congr rfl ?_
    intro b _
    rw [(hrow b).sum_eq, listmax_perm (hrow b)]
  · rw [countmismatch_snd_bytarr, countmismatch_snd_bytarr]
    refine Finset.sum_congr rfl ?_
    intro b _
    have hs := (hrow b).sum_eq
    have hm := listmin_zero_perm (hrow b)
    by_cases h0 : listmin ((List.range numcol).map (countBP W P b)) = 0
    · simp [h0, hm.mpr h0]
    · have h0' : ¬ listmin ((List.range numcol).map (countBP W (P.map tau) b)) = 0 :=
        fun hh => h0 (hm.mp hh)
      simp [h0, h0', hs]

/-- Witness for C9 at a concrete window, pattern and index swap. -/
theorem c9_score_relabel_invariant_witness :
    (∀ p, p < 2 → 1 - p < 2) ∧ (∀ p ∈ [(0 : Nat), 1], p < 2)
      ∧ countmismatch (bytarr 2 [5, 5] ([0, 1].map (fun p => 1 - p)))
          = countmismatch (bytarr 2 [5, 5] [0, 1]) :=
  ⟨fun p hp => by omega, by decide,
    c9_score_relabel_invariant 2 [5, 5] [0, 1] (fun p => 1 - p) (fun p => 1 - p)
      (fun p hp => by show 1 - p < 2; omega)
      (fun p hp => by show 1 - p < 2; omega)
      (fun p hp => by show 1 - (1 - p) = p; omega)
      (fun p hp => by show 1 - (1 - p) = p; omega) (by decide)⟩

/-! ## Color quantizer: greedy clustering, sieve, reduction loop -/

/-- Stable descending insertion of one weighted color: the element goes in
front of the first strictly lighter entry, after all entries of at least its
weight. -/
def insDesc (q : Color × Nat) : List (Color × Nat) → List (Color × Nat)
  | [] => [q]
  | r :: rs => if r.2 < q.2 then q :: r :: rs else r :: insDesc q rs

/-- Embeds Counter.most_common of the Python standard library as used by
colorfamilies: a stable sort of the histogram by descending count (the
Python sorted with a count key and reverse order, which is stable). -/
def mostCommon (C : List (Color × Nat)) : List (Color × Nat) :=
  C.foldl (fun acc q => insDesc q acc) []

/-- Inner loop of colorfamilies of pifind.py: scan the families in order;
the color joins the first family whose key (its founding color) is within
squared distance dist, otherwise it founds a new family at the end.  A
family is its founding color paired with its member histogram. -/
def addcolor (fams : List (Color × List (Color × Nat))) (col : Color)
    (num : Nat) (dist : Nat) : List (Color × List (Color × Nat)) :=
  match fams with
  | [] => [(col, [(col, num)])]
  | (famcol, wts) :: rest =>
    if coldist col famcol < dist then (famcol, wts ++ [(col, num)]) :: rest
    else (famcol, wts) :: addcolor rest col num dist

/-- Insertion into a Python dictionary embedded as an association list:
an existing key keeps its position and receives the new value, a new key
goes to the end. -/
def dictInsert (d : List (Color × Nat)) (k : Color) (v : Nat) : List (Color × Nat) :=
  match d with
  | [] => [(k, v)]
  | (k1, v1) :: rest =>
    if k1 = k then (k1, v) :: rest else (k1, v1) :: dictInsert rest k v

/-- Embeds colorfamilies of pifind.py: scan the histogram in most_common
order, grouping greedily with addcolor, then return the dictionary mapping
the weighted average of each family to its total weight (built in family
order, later duplicate averages overwriting earlier values, exactly as the
Python dict comprehension does). -/
def colorfamilies (C : List (Color × Nat)) (dist : Nat) : List (Color × Nat) :=
  ((mostCommon C).foldl (fun fs q => addcolor fs q.1 q.2 dist) []).foldl
    (fun d fam => dictInsert d (colavg fam.2) ((fam.2.map Prod.snd).sum)) []

/-- Variant of addcolor written from the specification text: the color is
compared against the weighted centroid of the members accumulated so far,
not against the founding color. -/
def addcolorCentroid (fams : List (Color × List (Color × Nat))) (col : Color)
    (num : Nat) (dist : Nat) : List (Color × List (Color × Nat)) :=
  match fams with
  | [] => [(col, [(col, num)])]
  | (famcol, wts) :: rest =>
    if coldist col (colavg wts) < dist then (famcol, wts ++ [(col, num)]) :: rest
    else (famcol, wts) :: addcolorCentroid rest col num dist

/-- Clustering pass as the specification text describes it, with the
weighted-centroid membership test; used to compare against the code. -/
def colorfamiliesCentroid (C : List (Color × Nat)) (dist : Nat) : List (Color × Nat) :=
  ((mostCommon C).foldl (fun fs q => addcolorCentroid fs q.1 q.2 dist) []).foldl
    (fun d fam => dictInsert d (colavg fam.2) ((fam.2.map Prod.snd).sum)) []

/-- Membership step written from the amended claim: the color joins the
family at the first position whose founding color is within squared
distance dist (computed with findIdx?), else founds a new family. -/
def joinFirst (fams : List (Color × List (Color × Nat))) (col : Color)
    (num : Nat) (dist : Nat) : List (Color × List (Color × Nat)) :=
  match fams.findIdx? (fun fam => decide (coldist col fam.1 < dist)) with
  | none => fams ++ [(col, [(col, num)])]
  | some i =>
      fams.set i ((fams.getD i ((0, 0, 0), [])).1,
        (fams.getD i ((0, 0, 0), [])).2 ++ [(col, num)])

/-- Clustering pass as the amended claim describes it: first family by
founding color, centroids only in the returned representatives. -/
def colorfamiliesFounder (C : List (Color × Nat)) (dist : Nat) : List (Color × Nat) :=
  ((mostCommon C).foldl (fun fs q => joinFirst fs q.1 q.2 dist) []).foldl
    (fun d fam => dictInsert d (colavg fam.2) ((fam.2.map Prod.snd).sum)) []

theorem addcolor_eq_joinFirst (fams : List (Color × List (Color × Nat)))
    (col : Color) (num : Nat) (dist : Nat) :
    addcolor fams col num dist = joinFirst fams col num dist := by
  induction fams with
  | nil => rfl
  | cons fam rest ih =>
    obtain ⟨famcol, wts⟩ := fam
    unfold addcolor joinFirst
    by_cases h : coldist col famcol < dist
    · rw [if_pos h]
      simp only [List.findIdx?_cons]
      rw [if_pos (by simpa using h)]
      simp
    · rw [if_neg h]
      simp only [List.findIdx?_cons]
      rw [if_neg (by simpa using h), List.findIdx?_start_succ]
      unfold joinFirst at ih
      cases hfind : rest.findIdx? (fun fam => decide (coldist col fam.1 < dist)) with
      | none =>
        rw [hfind] at ih
        simp only [Option.map_none']
        rw [ih]
        simp
      | some i =>
        rw [hfind] at ih
        simp only [Option.map_some']
        rw [ih]
        simp [List.set_cons_succ, List.getD_cons_succ]

/-- C3 counterexample: on this three-color histogram (already in descending
frequency order) the code starts a second family for the color (21,0,0),
whose squared distance to the first family key (0,0,0) is 441, although the
weighted centroid of the first family at that moment is (6,0,0), at squared
distance 225 < 250; the centroid rule of the claim would merge everything
into one family, so the two passes disagree. -/
theorem c3_counterexample :
    colorfamilies [((0, 0, 0), 3), ((15, 0, 0), 2), ((21, 0, 0), 1)] 250
      ≠ colorfamiliesCentroid [((0, 0, 0), 3), ((15, 0, 0), 2), ((21, 0, 0), 1)] 250 := by
  decide

/-- C3 amended: within each clustering pass, colors are scanned in
descending frequency order and each color joins the first existing family
whose founding color (its first, most frequent member, the key the code
compares against) is within squared RGB distance dist; the weighted
centroid is computed only for the returned family representatives.  The
code pass colorfamilies coincides with colorfamiliesFounder, the direct
transcription of that rule. -/
theorem c3_first_family_by_founder (C : List (Color × Nat)) (dist : Nat) :
    colorfamilies C dist = colorfamiliesFounder C dist := by
  unfold colorfamilies colorfamiliesFounder
  have h : ∀ (L : List (Color × Nat)) (fs : List (Color × List (Color × Nat))),
      L.foldl (fun fs q => addcolor fs q.1 q.2 dist) fs
        = L.foldl (fun fs q => joinFirst fs q.1 q.2 dist) fs := by
    intro L
    induction L with
    | nil => intro fs; rfl
    | cons q L ih =>
      intro fs
      simp only [List.foldl_cons]
      rw [addcolor_eq_joinFirst, ih]
  rw [h]

/-! ## Sieve and the reduction loop -/

/-- Embeds sievecolors of pifind.py: keep the colors whose count is
strictly above max(round of one percent of numpix, 2). -/
def sievecolors (C : List (Color × Nat)) (numpix : Nat) : List Color :=
  let thresh := max (roundHalfEvenDiv numpix 100) 2
  (C.filter (fun q => decide (thresh < q.2))).map Prod.fst

theorem assoc_unique {C : List (Color × Nat)} (hnd : (C.map Prod.fst).Nodup)
    {col : Color} {v w : Nat} (h1 : (col, v) ∈ C) (h2 : (col, w) ∈ C) : v = w := by
  induction C with
  | nil => cases h1
  | cons q rest ih =>
    obtain ⟨qc, qv⟩ := q
    rw [List.map_cons, List.nodup_cons] at hnd
    rcases List.mem_cons.mp h1 with e1 | m1 <;> rcases List.mem_cons.mp h2 with e2 | m2
    · rw [Prod.mk.injEq] at e1 e2
      omega
    · rw [Prod.mk.injEq] at e1
      exact absurd (List.mem_map.mpr ⟨(col, w), m2, rfl⟩) (e1.1 ▸ hnd.1)
    · rw [Prod.mk.injEq] at e2
      exact absurd (List.mem_map.mpr ⟨(col, v), m1, rfl⟩) (e2.1 ▸ hnd.1)
    · exact ih hnd.2 m1 m2

/-- C7 amended: after a successful quantization the sieve keeps exactly the
families whose total weight is strictly above max(round of one percent of
the pixel count, 2), and drops exactly those at or below that threshold
(the code comparison is strict, so a family exactly at the threshold is
dropped). -/
theorem c7_sieve_strict (C : List (Color × Nat)) (numpix : Nat)
    (hnd : (C.map Prod.fst).Nodup) (col : Color) (w : Nat)
    (hmem : (col, w) ∈ C) :
    col ∈ sievecolors C numpix ↔ max (roundHalfEvenDiv numpix 100) 2 < w := by
  unfold sievecolors
  constructor
  · intro h
    obtain ⟨q, hq, hq1⟩ := List.mem_map.mp h
    have hqf := List.mem_filter.mp hq
    obtain ⟨qc, qv⟩ := q
    have hqc : qc = col := hq1
    subst hqc
    have hv : qv = w := assoc_unique hnd hqf.1 hmem
    have := of_decide_eq_true hqf.2
    omega
  · intro h
    exact List.mem_map.mpr
      ⟨(col, w), List.mem_filter.mpr ⟨hmem, decide_eq_true h⟩, rfl⟩

/-- Witness for C7 at a concrete one-entry histogram. -/
theorem c7_sieve_strict_witness :
    (([(((2, 3, 4) : Color), 5)].map Prod.fst).Nodup)
      ∧ ((((2, 3, 4) : Color), 5) ∈ [(((2, 3, 4) : Color), 5)])
      ∧ (((2, 3, 4) : Color) ∈ sievecolors [(((2, 3, 4) : Color), 5)] 10
          ↔ max (roundHalfEvenDiv 10 100) 2 < 5) :=
  ⟨by decide, by decide,
    c7_sieve_strict [((2, 3, 4), 5)] 10 (by decide) (2, 3, 4) 5 (by decide)⟩

/-- C7 counterexample: with 16 pixels the threshold is max(round(0.16), 2)
which is 2, and a family of weight exactly 2 is at (not below) the
threshold, yet the sieve drops it: the code keeps only weights strictly
above the threshold. -/
theorem c7_counterexample :
    ((0, 0, 0) : Color) ∉ sievecolors [(((0, 0, 0) : Color), 2)] 16
      ∧ max (roundHalfEvenDiv 16 100) 2 ≤ 2 := by decide

theorem length_insDesc (q : Color × Nat) (l : List (Color × Nat)) :
    (insDesc q l).length = l.length + 1 := by
  induction l with
  | nil => rfl
  | cons r rs ih =>
    unfold insDesc
    split
    · simp
    · simp [ih]

theorem length_mostCommon (C : List (Color × Nat)) :
    (mostCommon C).length = C.length := by
  unfold mostCommon
  have h : ∀ (L : List (Color × Nat)) (acc : List (Color × Nat)),
      (L.foldl (fun acc q => insDesc q acc) acc).length = acc.length + L.length := by
    intro L
    induction L with
    | nil => intro acc; simp
    | cons q L ih =>
      intro acc
      simp only [List.foldl_cons, List.length_cons]
      rw [ih, length_insDesc]
      omega
  rw [h]
  simp

theorem length_addcolor_le (fams : List (Color × List (Color × Nat)))
    (col : Color) (num dist : Nat) :
    (addcolor fams col num dist).length ≤ fams.length + 1 := by
  induction fams with
  | nil => simp [addcolor]
  | cons fam rest ih =>
    obtain ⟨famcol, wts⟩ := fam
    unfold addcolor
    split
    · simp
    · simp only [List.length_cons]
      omega

theorem length_famfold_le (dist : Nat) (L : List (Color × Nat)) :
    ∀ fs : List (Color × List (Color × Nat)),
      (L.foldl (fun fs q => addcolor fs q.1 q.2 dist) fs).length
        ≤ fs.length + L.length := by
  induction L with
  | nil => intro fs; simp
  | cons q L ih =>
    intro fs
    simp only [List.foldl_cons]
    have h1 := ih (addcolor fs q.1 q.2 dist)
    have h2 := length_addcolor_le fs q.1 q.2 dist
    simp only [List.length_cons]
    omega

theorem length_dictInsert_le (d : List (Color × Nat)) (k : Color) (v : Nat) :
    (dictInsert d k v).length ≤ d.length + 1 := by
  induction d with
  | nil => simp [dictInsert]
  | cons q rest ih =>
    obtain ⟨k1, v1⟩ := q
    unfold dictInsert
    split
    · simp
    · simp only [List.length_cons]
      omega

theorem length_dictfold_le (fams : List (Color × List (Color × Nat))) :
    ∀ d : List (Color × Nat),
      (fams.foldl (fun d fam =>
          dictInsert d (colavg fam.2) ((fam.2.map Prod.snd).sum)) d).length
        ≤ d.length + fams.length := by
  induction fams with
  | nil => intro d; simp
  | cons fam rest ih =>
    intro d
    simp only [List.foldl_cons]
    have h1 := ih (dictInsert d (colavg fam.2) ((fam.2.map Prod.snd).sum))
    have h2 := length_dictInsert_le d (colavg fam.2) ((fam.2.map Prod.snd).sum)
    simp only [List.length_cons]
    omega

theorem colorfamilies_length_le (C : List (Color × Nat)) (dist : Nat) :
    (colorfamilies C dist).length ≤ C.length := by
  unfold colorfamilies
  have h1 := length_dictfold_le
    ((mostCommon C).foldl (fun fs q => addcolor fs q.1 q.2 dist) []) []
  have h2 := length_famfold_le dist (mostCommon C) []
  have h3 := length_mostCommon C
  simp only [List.length_nil] at h1 h2
  omega

/-- State of the reduction loop of reducecolors in pifind.py: the current
histogram, its size, the size seen at the top of the previous iteration,
and the distance threshold. -/
structure RState where
  hist : List (Color × Nat)
  numcol : Nat
  oldnum : Nat
  dist : Nat

/-- One iteration of the while loop of reducecolors: raise the threshold
by 20 when the family count did not change, then run one clustering pass. -/
def rstep (s : RState) : RState :=
  let dist := if s.numcol = s.oldnum then s.dist + 20 else s.dist
  let hist := colorfamilies s.hist dist
  ⟨hist, hist.length, s.numcol, dist⟩

/-- The while loop of reducecolors with an explicit fuel: loop while the
family count exceeds 6 and the threshold is below 1000; none signals fuel
exhaustion (proved unreachable for the fuel used by reducecolors). -/
def rloop : Nat → RState → Option RState
  | 0, s => if 6 < s.numcol ∧ s.dist < 1000 then none else some s
  | fuel + 1, s =>
    if 6 < s.numcol ∧ s.dist < 1000 then rloop fuel (rstep s) else some s

/-- Embeds reducecolors of pifind.py: iterate the clustering loop from
threshold 250, then sieve.  The fuel 40 * length + 801 strictly exceeds the
loop measure, so the none branch is unreachable (rloop_terminates). -/
def reducecolors (C : List (Color × Nat)) (numpix : Nat) : List Color :=
  match rloop (40 * C.length + 801) ⟨C, C.length, C.length + 1, 250⟩ with
  | some s => sievecolors s.hist numpix
  | none => []

/-- Termination measure of the reduction loop: the family count can only
shrink across passes, the threshold only grows, and an iteration that
changes neither lowers the flag in the middle summand. -/
def rmeasure (s : RState) : Nat :=
  40 * s.numcol + (if s.numcol = s.oldnum then 0 else 20) + (1030 - s.dist)

theorem rstep_measure (s : RState) (hinv : s.numcol = s.hist.length)
    (h6 : 6 < s.numcol) (hd : s.dist < 1000) :
    rmeasure (rstep s) < rmeasure s ∧ (rstep s).numcol = (rstep s).hist.length := by
  refine ⟨?_, rfl⟩
  unfold rstep rmeasure
  by_cases he : s.numcol = s.oldnum
  · rw [if_pos he]
    have hlen := colorfamilies_length_le s.hist (s.dist + 20)
    dsimp only
    rw [if_pos he]
    split <;> omega
  · rw [if_neg he]
    have hlen := colorfamilies_length_le s.hist s.dist
    dsimp only
    rw [if_neg he]
    split <;> omega

theorem rloop_terminates :
    ∀ (fuel : Nat) (s : RState), s.numcol = s.hist.length → rmeasure s < fuel →
      ∃ t, rloop fuel s = some t ∧ ¬(6 < t.numcol ∧ t.dist < 1000) := by
  intro fuel
  induction fuel with
  | zero => intro s _ h; exact absurd h (Nat.not_lt_zero _)
  | succ f ih =>
    intro s hinv hm
    unfold rloop
    by_cases hg : 6 < s.numcol ∧ s.dist < 1000
    · rw [if_pos hg]
      obtain ⟨hdec, hinv2⟩ := rstep_measure s hinv hg.1 hg.2
      exact ih (rstep s) hinv2 (by omega)
    · rw [if_neg hg]
      exact ⟨s, rfl, hg⟩

theorem rmeasure_init (C : List (Color × Nat)) :
    rmeasure ⟨C, C.length, C.length + 1, 250⟩ < 40 * C.length + 801 := by
  unfold rmeasure
  simp only
  rw [if_neg (by omega)]
  omega

/-- C8: the reduction loop terminates on every input histogram.  With the
fuel used by reducecolors, rloop reaches a state in which the guard fails,
that is, the family count is at most 6 (success) or the threshold has
passed 1000 (the QuantizationFailure side), and reducecolors returns the
sieved histogram of that final state; moreover one iteration raises the
threshold by 20 exactly when the pass left the family count unchanged from
the previous pass. -/
theorem c8_reduction_terminates (L : List (Color × Nat)) (numpix : Nat) :
    (∃ t, rloop (40 * L.length + 801) ⟨L, L.length, L.length + 1, 250⟩ = some t
        ∧ (t.numcol ≤ 6 ∨ 1000 ≤ t.dist)
        ∧ reducecolors L numpix = sievecolors t.hist numpix)
      ∧ (∀ s : RState, 6 < s.numcol → s.dist < 1000 →
          ((rstep s).dist = s.dist + 20 ↔ s.numcol = s.oldnum)) := by
  constructor
  · obtain ⟨t, ht, hg⟩ :=
      rloop_terminates (40 * L.length + 801) ⟨L, L.length, L.length + 1, 250⟩
        rfl (rmeasure_init L)
    push_neg at hg
    refine ⟨t, ht, by omega, ?_⟩
    unfold reducecolors
    rw [ht]
  · intro s h6 hd
    unfold rstep
    dsimp only
    constructor
    · intro h
      by_contra he
      rw [if_neg he] at h
      omega
    · intro he
      rw [if_pos he]

/-- Witness for C8 at the empty histogram. -/
theorem c8_reduction_terminates_witness :
    (∃ t, rloop (40 * ([] : List (Color × Nat)).length + 801)
          ⟨[], ([] : List (Color × Nat)).length, ([] : List (Color × Nat)).length + 1, 250⟩
          = some t
        ∧ (t.numcol ≤ 6 ∨ 1000 ≤ t.dist)
        ∧ reducecolors [] 0 = sievecolors t.hist 0)
      ∧ (∀ s : RState, 6 < s.numcol → s.dist < 1000 →
          ((rstep s).dist = s.dist + 20 ↔ s.numcol = s.oldnum)) :=
  c8_reduction_terminates [] 0

/-- Embeds the color-selection flow of pifind.py around the quantizer: a
histogram of at most 6 colors is used as is; otherwise the reduction path
(the non-interactive quantizer branch, choice 2 of the prompt) runs
reducecolors and the run aborts (none, the QuantizationFailure report)
when more than 6 families remain. -/
def quantize (C : List (Color × Nat)) (numpix : Nat) : Option (List Color) :=
  if C.length ≤ 6 then some (C.map Prod.fst)
  else
    let cols := reducecolors C numpix
    if 6 < cols.length then none else some cols

/-- C4 amended: the quantizer never delivers more than 6 families to the
scan, and reports QuantizationFailure (none) exactly when the histogram has
more than 6 colors and the reduction leaves more than 6 families; no lower
bound holds on the delivered family count (it can be 1 or 2). -/
theorem c4_at_most_six (C : List (Color × Nat)) (numpix : Nat) :
    (∀ cols, quantize C numpix = some cols → cols.length ≤ 6)
      ∧ (quantize C numpix = none
          ↔ 6 < C.length ∧ 6 < (reducecolors C numpix).length) := by
  unfold quantize
  by_cases h : C.length ≤ 6
  · rw [if_pos h]
    constructor
    · intro cols hc
      have he : C.map Prod.fst = cols := by injection hc
      rw [← he, List.length_map]
      exact h
    · constructor
      · intro hfalse
        exact absurd hfalse (Option.some_ne_none _)
      · rintro ⟨h1, _⟩
        omega
  · rw [if_neg h]
    dsimp only
    by_cases h2 : 6 < (reducecolors C numpix).length
    · rw [if_pos h2]
      refine ⟨fun cols hc => Option.noConfusion hc, ?_⟩
      constructor
      · intro _
        omega
      · intro _
        rfl
    · rw [if_neg h2]
      constructor
      · intro cols hc
        have he : reducecolors C numpix = cols := by injection hc
        have := congrArg List.length he
        omega
      · constructor
        · intro hfalse
          exact absurd hfalse (Option.some_ne_none _)
        · rintro ⟨_, h3⟩
          omega

/-- Witness for C4 at a concrete small histogram. -/
theorem c4_at_most_six_witness :
    quantize [(((1, 2, 3) : Color), 4)] 4 = some [((1, 2, 3) : Color)]
      ∧ ([((1, 2, 3) : Color)] : List Color).length ≤ 6 :=
  ⟨by decide, (c4_at_most_six [((1, 2, 3), 4)] 4).1 [(1, 2, 3)] (by decide)⟩

/-- C4 counterexample: a target with a single color is accepted untouched,
so the family count delivered to the scan is 1, below the lower bound 3
stated by the claim. -/
theorem c4_counterexample :
    quantize [(((0, 0, 0) : Color), 5)] 9 = some [((0, 0, 0) : Color)]
      ∧ ([((0, 0, 0) : Color)] : List Color).length < 3 := by decide

/-! ## Search loop: windows, best tracker, interrupt flag -/

/-- Embeds one append to a Python deque with maxlen numpix: the new byte
goes to the right and, when the deque is full, the oldest byte on the left
is evicted. -/
def dappend (numpix : Nat) (d : List Nat) (b : Nat) : List Nat :=
  (d ++ [b]).drop (d.length + 1 - numpix)

/-- Strict comparison of scores: the Python comparison of the pairs
(mismatch, muddle), which is lexicographic. -/
def scoreLt (a b : Nat × Nat) : Prop :=
  a.1 < b.1 ∨ (a.1 = b.1 ∧ a.2 < b.2)

instance scoreLtDec (a b : Nat × Nat) : Decidable (scoreLt a b) :=
  inferInstanceAs (Decidable (a.1 < b.1 ∨ (a.1 = b.1 ∧ a.2 < b.2)))

/-- Nonstrict lexicographic comparison of scores. -/
def scoreLe (a b : Nat × Nat) : Prop :=
  a.1 < b.1 ∨ (a.1 = b.1 ∧ a.2 ≤ b.2)

instance scoreLeDec (a b : Nat × Nat) : Decidable (scoreLe a b) :=
  inferInstanceAs (Decidable (a.1 < b.1 ∨ (a.1 = b.1 ∧ a.2 ≤ b.2)))

theorem scoreLe_refl (a : Nat × Nat) : scoreLe a a := Or.inr ⟨rfl, le_refl _⟩

theorem scoreLe_of_lt {a b : Nat × Nat} (h : scoreLt a b) : scoreLe a b := by
  rcases h with h | ⟨h1, h2⟩
  · exact Or.inl h
  · exact Or.inr ⟨h1, Nat.le_of_lt h2⟩

theorem scoreLe_trans {a b c : Nat × Nat} (h1 : scoreLe a b) (h2 : scoreLe b c) :
    scoreLe a c := by
  unfold scoreLe at h1 h2 ⊢
  omega

/-- State of the search loop of pifind.py: the two parity windows, the
previous nibble, the best score, the recorded offset of the best window
(none while no window was ever scored, the Python name index being unbound
then), the bytes of the best window, and the flag recording that the loop
has exited (success break or observed interrupt). -/
structure SearchState where
  cur : List Nat
  other : List Nat
  oldhalf : Nat
  minmisrpt : Nat × Nat
  index : Option Int
  bestbytes : List Nat
  done : Bool

/-- Start of the loop: empty windows, oldhalf 3 (the integer digit of pi),
worst score (numpix, numpix), no best yet. -/
def initState (numpix : Nat) : SearchState :=
  ⟨[], [], 3, (numpix, numpix), none, [], false⟩

/-- Embeds one iteration of the search loop of pifind.py at position pos
with the incoming nibble d: swap the windows, push the byte made of the
previous and current nibble, and if the active window is full score it,
update the best tracker on strict improvement (recording the offset
pos - 2*numpix + 1 and the window bytes, and stopping on mismatch 0), and
finally observe the interrupt flag; a window that is not yet full skips the
interrupt check (the Python continue).  A finished state is left unchanged. -/
def searchStep (numpix numcol : Nat) (pattern : List Nat) (s : SearchState)
    (pos d : Nat) (intr : Bool) : SearchState :=
  if s.done then s
  else
    let newcur := dappend numpix s.other (s.oldhalf * 16 + d)
    if newcur.length < numpix then
      ⟨newcur, s.cur, d, s.minmisrpt, s.index, s.bestbytes, s.done⟩
    else
      let misrpt := countmismatch (bytarr numcol newcur pattern)
      if scoreLt misrpt s.minmisrpt then
        ⟨newcur, s.cur, d, misrpt, some ((pos : Int) - 2 * numpix + 1), newcur,
          decide (misrpt.1 = 0) || intr⟩
      else
        ⟨newcur, s.cur, d, s.minmisrpt, s.index, s.bestbytes, intr⟩

/-- Run the loop over a list of nibbles starting at position pos. -/
def runFrom (numpix numcol : Nat) (pattern : List Nat) (intr : Nat → Bool) :
    SearchState → Nat → List Nat → SearchState
  | s, _, [] => s
  | s, pos, d :: ds =>
      runFrom numpix numcol pattern intr
        (searchStep numpix numcol pattern s pos d (intr pos)) (pos + 1) ds

/-- Full run of the search loop over a digit list, from the initial state,
with the interrupt flag read per position from intr. -/
def searchRun (numpix numcol : Nat) (pattern : List Nat) (intr : Nat → Bool)
    (digits : List Nat) : SearchState :=
  runFrom numpix numcol pattern intr (initState numpix) 0 digits

theorem searchStep_minmisrpt_le (numpix numcol : Nat) (pattern : List Nat)
    (s : SearchState) (pos d : Nat) (intr : Bool) :
    scoreLe (searchStep numpix numcol pattern s pos d intr).minmisrpt s.minmisrpt := by
  unfold searchStep
  by_cases hdone : s.done
  · rw [if_pos hdone]
    exact scoreLe_refl _
  · rw [if_neg hdone]
    dsimp only
    by_cases hfull : (dappend numpix s.other (s.oldhalf * 16 + d)).length < numpix
    · rw [if_pos hfull]
      exact scoreLe_refl _
    · rw [if_neg hfull]
      by_cases himp : scoreLt
          (countmismatch (bytarr numcol (dappend numpix s.other (s.oldhalf * 16 + d)) pattern))
          s.minmisrpt
      · rw [if_pos himp]
        exact scoreLe_of_lt himp
      · rw [if_neg himp]
        exact scoreLe_refl _

theorem runFrom_minmisrpt_le (numpix numcol : Nat) (pattern : List Nat)
    (intr : Nat → Bool) :
    ∀ (L : List Nat) (s : SearchState) (pos : Nat),
      scoreLe (runFrom numpix numcol pattern intr s pos L).minmisrpt s.minmisrpt := by
  intro L
  induction L with
  | nil => intro s pos; exact scoreLe_refl _
  | cons x L ih =>
    intro s pos
    exact scoreLe_trans (ih _ (pos + 1))
      (searchStep_minmisrpt_le numpix numcol pattern s pos x (intr pos))

theorem runFrom_append (numpix numcol : Nat) (pattern : List Nat)
    (intr : Nat → Bool) :
    ∀ (L1 L2 : List Nat) (s : SearchState) (pos : Nat),
      runFrom numpix numcol pattern intr s pos (L1 ++ L2)
        = runFrom numpix numcol pattern intr
            (runFrom numpix numcol pattern intr s pos L1) (pos + L1.length) L2 := by
  intro L1
  induction L1 with
  | nil => intro L2 s pos; simp [runFrom]
  | cons x L1 ih =>
    intro L2 s pos
    show runFrom numpix numcol pattern intr _ (pos + 1) (L1 ++ L2) = _
    rw [ih]
    have he : pos + 1 + L1.length = pos + (x :: L1).length := by
      simp [List.length_cons]
      omega
    rw [he]
    rfl

/-- Indicator double sum: a pair with both components in range is counted
exactly once over the full index rectangle. -/
theorem indicator_sum (n m a c : Nat) (ha : a < n) (hc : c < m) :
    ∑ b ∈ Finset.range n, ∑ p ∈ Finset.range m,
      (if a = b ∧ c = p then 1 else 0) = 1 := by
  have hinner : ∀ b, (∑ p ∈ Finset.range m, (if a = b ∧ c = p then 1 else 0))
      = if a = b then 1 else 0 := by
    intro b
    by_cases hab : a = b
    · simp only [hab, true_and]
      rw [Finset.sum_ite_eq]
      simp [Finset.mem_range.mpr hc]
    · simp [hab]
  rw [Finset.sum_congr rfl (fun b _ => hinner b), Finset.sum_ite_eq]
  simp [Finset.mem_range.mpr ha]

theorem beq_pair_decide (a b c d : Nat) :
    ((a == b) && (c == d)) = decide (a = b ∧ c = d) := by
  by_cases h1 : a = b <;> by_cases h2 : c = d <;> simp [h1, h2]

theorem pairCount_total (m : Nat) (L : List (Nat × Nat))
    (hL : ∀ q ∈ L, q.1 < 256 ∧ q.2 < m) :
    ∑ b ∈ Finset.range 256, ∑ p ∈ Finset.range m,
      (L.filter (fun q => q.1 == b && q.2 == p)).length = L.length := by
  induction L with
  | nil => simp
  | cons q L ih =>
    have hq := hL q (List.mem_cons_self q L)
    have hL2 : ∀ r ∈ L, r.1 < 256 ∧ r.2 < m :=
      fun r hr => hL r (List.mem_cons_of_mem q hr)
    have hsplit : ∀ b p : Nat,
        ((q :: L).filter (fun r => r.1 == b && r.2 == p)).length
          = (if q.1 = b ∧ q.2 = p then 1 else 0)
              + (L.filter (fun r => r.1 == b && r.2 == p)).length := by
      intro b p
      rw [List.filter_cons, beq_pair_decide]
      by_cases hqq : q.1 = b ∧ q.2 = p
      · rw [decide_eq_true hqq, if_pos rfl, if_pos hqq]
        simp only [List.length_cons]
        omega
      · rw [decide_eq_false hqq]
        simp [hqq]
    calc ∑ b ∈ Finset.range 256, ∑ p ∈ Finset.range m,
          ((q :: L).filter (fun r => r.1 == b && r.2 == p)).length
        = ∑ b ∈ Finset.range 256, ∑ p ∈ Finset.range m,
            ((if q.1 = b ∧ q.2 = p then 1 else 0)
              + (L.filter (fun r => r.1 == b && r.2 == p)).length) := by
          refine Finset.sum_congr rfl fun b _ => Finset.sum_congr rfl fun p _ => ?_
          exact hsplit b p
      _ = (∑ b ∈ Finset.range 256, ∑ p ∈ Finset.range m,
            (if q.1 = b ∧ q.2 = p then 1 else 0))
          + ∑ b ∈ Finset.range 256, ∑ p ∈ Finset.range m,
            (L.filter (fun r => r.1 == b && r.2 == p)).length := by
          rw [← Finset.sum_add_distrib]
          refine Finset.sum_congr rfl fun b _ => ?_
          rw [← Finset.sum_add_distrib]
      _ = 1 + L.length := by rw [indicator_sum 256 m q.1 q.2 hq.1 hq.2, ih hL2]
      _ = (q :: L).length := by simp [List.length_cons]; omega

/-- Every score of a full window is at most the initial worst score
(numpix, numpix) in the lexicographic order. -/
theorem countmismatch_le_worst (numcol : Nat) (W P : List Nat)
    (hW : ∀ b ∈ W, b < 256) (hP : ∀ p ∈ P, p < numcol)
    (hlen : P.length = W.length) :
    scoreLe (countmismatch (bytarr numcol W P)) (W.length, W.length) := by
  have hzip : (W.zip P).length = W.length := by
    rw [List.length_zip]
    omega
  have hmemzip : ∀ q ∈ W.zip P, q.1 < 256 ∧ q.2 < numcol := by
    rintro ⟨a, c⟩ hq
    have := List.of_mem_zip hq
    exact ⟨hW a this.1, hP c this.2⟩
  have htot : ∑ b ∈ Finset.range 256, ∑ p ∈ Finset.range numcol,
      countBP W P b p = W.length := by
    rw [← hzip]
    exact pairCount_total numcol (W.zip P) hmemzip
  have hrowsum : ∀ b, ((List.range numcol).map (countBP W P b)).sum
      = ∑ p ∈ Finset.range numcol, countBP W P b p :=
    fun b => list_range_map_sum numcol (countBP W P b)
  have hmis : (countmismatch (bytarr numcol W P)).1 ≤ W.length := by
    rw [countmismatch_fst_bytarr]
    calc ∑ b ∈ Finset.range 256,
          (((List.range numcol).map (countBP W P b)).sum
            - listmax ((List.range numcol).map (countBP W P b)))
        ≤ ∑ b ∈ Finset.range 256, ((List.range numcol).map (countBP W P b)).sum :=
          Finset.sum_le_sum fun b _ => Nat.sub_le _ _
      _ = W.length := by
          rw [Finset.sum_congr rfl fun b _ => hrowsum b]
          exact htot
  have hmud : (countmismatch (bytarr numcol W P)).2 ≤ W.length := by
    rw [countmismatch_snd_bytarr]
    calc ∑ b ∈ Finset.range 256,
          (if listmin ((List.range numcol).map (countBP W P b)) ≠ 0
           then ((List.range numcol).map (countBP W P b)).sum else 0)
        ≤ ∑ b ∈ Finset.range 256, ((List.range numcol).map (countBP W P b)).sum := by
          refine Finset.sum_le_sum fun b _ => ?_
          split
          · exact le_refl _
          · exact Nat.zero_le _
      _ = W.length := by
          rw [Finset.sum_congr rfl fun b _ => hrowsum b]
          exact htot
  unfold scoreLe
  omega

/-- C5: the best tracker starts at the worst possible score
(numpix, numpix), every score computable from a full window (with bytes
below 256 and pattern entries below numcol) is at most that in the
lexicographic order, and the tracked best score along any run is monotone
non-increasing, being replaced only by strictly smaller scores. -/
theorem c5_best_tracker (numpix numcol : Nat) (pattern : List Nat)
    (intr : Nat → Bool) (D : List Nat) :
    (initState numpix).minmisrpt = (numpix, numpix)
      ∧ (∀ W P : List Nat, W.length = numpix → P.length = numpix →
          (∀ b ∈ W, b < 256) → (∀ p ∈ P, p < numcol) →
          scoreLe (countmismatch (bytarr numcol W P)) (numpix, numpix))
      ∧ (∀ m n : Nat, m ≤ n →
          scoreLe (searchRun numpix numcol pattern intr (D.take n)).minmisrpt
            (searchRun numpix numcol pattern intr (D.take m)).minmisrpt) := by
  refine ⟨rfl, ?_, ?_⟩
  · intro W P hWlen hPlen hW hP
    have := countmismatch_le_worst numcol W P hW hP (by omega)
    rw [hWlen] at this
    exact this
  · intro m n hmn
    have hsplit : D.take n = D.take m ++ (D.drop m).take (n - m) := by
      rw [← List.take_add]
      congr 1
      omega
    rw [hsplit]
    unfold searchRun
    rw [runFrom_append]
    exact runFrom_minmisrpt_le numpix numcol pattern intr _ _ _

/-- Witness for C5 at a concrete run. -/
theorem c5_best_tracker_witness :
    (initState 1).minmisrpt = (1, 1)
      ∧ scoreLe (countmismatch (bytarr 1 [7] [0])) (1, 1)
      ∧ scoreLe (searchRun 1 1 [0] (fun _ => false) ([2, 4].take 2)).minmisrpt
          (searchRun 1 1 [0] (fun _ => false) ([2, 4].take 0)).minmisrpt :=
  ⟨(c5_best_tracker 1 1 [0] (fun _ => false) [2, 4]).1,
    (c5_best_tracker 1 1 [0] (fun _ => false) [2, 4]).2.1 [7] [0] rfl rfl
      (by decide) (by decide),
    (c5_best_tracker 1 1 [0] (fun _ => false) [2, 4]).2.2 0 2 (by omega)⟩

/-! ## Window contents as a function of the digit stream -/

/-- The byte formed at step k of the loop: the nibble before position k+1
and the nibble at position k+1, over the padded digit list (3 followed by
the fractional digits, so that the padded index equals the 1-indexed digit
position and index 0 is the integer digit 3). -/
def byteAt (pD : List Nat) (k : Nat) : Nat :=
  pD.getD k 0 * 16 + pD.getD (k + 1) 0

/-- Contents of the active window after n steps of the loop: the last
min numpix ((n+1)/2) bytes of the parity class of step n-1, oldest first. -/
def curModel (numpix : Nat) (pD : List Nat) (n : Nat) : List Nat :=
  (List.range (min numpix ((n + 1) / 2))).map
    (fun k => byteAt pD (n + 1 - 2 * min numpix ((n + 1) / 2) + 2 * k))

theorem curModel_length (numpix : Nat) (pD : List Nat) (n : Nat) :
    (curModel numpix pD n).length = min numpix ((n + 1) / 2) := by
  unfold curModel
  rw [List.length_map, List.length_range]

theorem curModel_getElem (numpix : Nat) (pD : List Nat) (n j : Nat)
    (h : j < (curModel numpix pD n).length) :
    (curModel numpix pD n)[j]
      = byteAt pD (n + 1 - 2 * min numpix ((n + 1) / 2) + 2 * j) := by
  unfold curModel
  simp

theorem dappend_length (numpix : Nat) (d : List Nat) (b : Nat) :
    (dappend numpix d b).length = min (d.length + 1) numpix := by
  unfold dappend
  rw [List.length_drop, List.length_append]
  simp
  omega

theorem curModel_zero (numpix : Nat) (pD : List Nat) :
    curModel numpix pD 0 = [] := by
  unfold curModel
  rw [show min numpix ((0 + 1) / 2) = 0 by omega]
  rfl

theorem dappend_curModel_zero (numpix : Nat) (hnp : 1 ≤ numpix) (pD : List Nat) :
    dappend numpix (curModel numpix pD 0) (byteAt pD 0) = curModel numpix pD 1 := by
  rw [curModel_zero]
  unfold dappend curModel
  rw [show min numpix ((1 + 1) / 2) = 1 by omega]
  simp only [List.length_nil, List.nil_append]
  rw [show 0 + 1 - numpix = 0 by omega, List.drop_zero,
    show List.range 1 = [0] from rfl, List.map_cons, List.map_nil]

theorem dappend_curModel_succ (numpix : Nat) (hnp : 1 ≤ numpix) (pD : List Nat)
    (m : Nat) :
    dappend numpix (curModel numpix pD m) (byteAt pD (m + 1))
      = curModel numpix pD (m + 2) := by
  have hlen1 : (curModel numpix pD m).length = min numpix ((m + 1) / 2) :=
    curModel_length numpix pD m
  refine List.ext_getElem ?_ ?_
  · rw [dappend_length, curModel_length, curModel_length]
    omega
  · intro j h1 h2
    unfold dappend
    rw [List.getElem_drop]
    by_cases hin : (curModel numpix pD m).length + 1 - numpix + j
        < (curModel numpix pD m).length
    · rw [List.getElem_append_left hin, curModel_getElem _ _ _ _ hin,
        curModel_getElem]
      congr 1
      rw [dappend_length] at h1
      omega
    · rw [List.getElem_append_right (Nat.le_of_not_lt hin)]
      rw [dappend_length] at h1
      have hz : (curModel numpix pD m).length + 1 - numpix + j
          - (curModel numpix pD m).length = 0 := by
        omega
      simp only [hz, List.getElem_cons_zero]
      rw [curModel_getElem]
      congr 1
      omega

theorem searchStep_done_eq (numpix numcol : Nat) (pattern : List Nat)
    (s : SearchState) (pos d : Nat) (intr : Bool) (hdone : s.done = true) :
    searchStep numpix numcol pattern s pos d intr = s := by
  unfold searchStep
  rw [if_pos hdone]

theorem searchStep_window (numpix numcol : Nat) (pattern : List Nat)
    (s : SearchState) (pos d : Nat) (intr : Bool) (hdone : s.done = false) :
    (searchStep numpix numcol pattern s pos d intr).cur
        = dappend numpix s.other (s.oldhalf * 16 + d)
      ∧ (searchStep numpix numcol pattern s pos d intr).other = s.cur
      ∧ (searchStep numpix numcol pattern s pos d intr).oldhalf = d := by
  unfold searchStep
  rw [if_neg (by simp [hdone])]
  dsimp only
  split
  · exact ⟨rfl, rfl, rfl⟩
  · split
    · exact ⟨rfl, rfl, rfl⟩
    · exact ⟨rfl, rfl, rfl⟩

theorem take_succ_of_lt {D : List Nat} {n : Nat} (hn : n < D.length) :
    D.take (n + 1) = D.take n ++ [D.getD n 0] := by
  rw [List.take_succ, List.getElem?_eq_getElem hn]
  rw [getD_of_lt D n 0 hn]
  rfl

theorem searchRun_take_succ (numpix numcol : Nat) (pattern : List Nat)
    (intr : Nat → Bool) (D : List Nat) {n : Nat} (hn : n < D.length) :
    searchRun numpix numcol pattern intr (D.take (n + 1))
      = searchStep numpix numcol pattern
          (searchRun numpix numcol pattern intr (D.take n)) n (D.getD n 0)
          (intr n) := by
  unfold searchRun
  rw [take_succ_of_lt hn, runFrom_append]
  rw [show (0 : Nat) + (D.take n).length = n from by
    rw [List.length_take]
    omega]
  rfl

theorem searchRun_window_inv (numpix numcol : Nat) (pattern : List Nat)
    (intr : Nat → Bool) (D : List Nat) (hnp : 1 ≤ numpix) :
    ∀ n, n ≤ D.length →
      (searchRun numpix numcol pattern intr (D.take n)).done = false →
      (searchRun numpix numcol pattern intr (D.take n)).cur
          = curModel numpix (3 :: D) n
        ∧ (searchRun numpix numcol pattern intr (D.take n)).other
            = curModel numpix (3 :: D) (n - 1)
        ∧ (searchRun numpix numcol pattern intr (D.take n)).oldhalf
            = (3 :: D).getD n 0 := by
  intro n
  induction n with
  | zero =>
    intro _ _
    refine ⟨?_, ?_, rfl⟩ <;> simp [searchRun, runFrom, initState, curModel_zero]
  | succ n ih =>
    intro hn1 hdone1
    have hn : n < D.length := by omega
    rw [searchRun_take_succ numpix numcol pattern intr D hn] at hdone1 ⊢
    have hdone0 : (searchRun numpix numcol pattern intr (D.take n)).done = false := by
      by_contra h
      have hb : (searchRun numpix numcol pattern intr (D.take n)).done = true := by
        revert h
        cases (searchRun numpix numcol pattern intr (D.take n)).done <;> simp
      rw [searchStep_done_eq numpix numcol pattern _ n (D.getD n 0) (intr n) hb,
        hb] at hdone1
      exact absurd hdone1 (by simp)
    obtain ⟨hcur, hoth, hold⟩ := ih (by omega) hdone0
    obtain ⟨h1, h2, h3⟩ :=
      searchStep_window numpix numcol pattern _ n (D.getD n 0) (intr n) hdone0
    refine ⟨?_, ?_, ?_⟩
    · rw [h1, hoth, hold]
      have hb : (3 :: D).getD n 0 * 16 + D.getD n 0 = byteAt (3 :: D) n := by
        unfold byteAt
        rw [List.getD_cons_succ]
      rw [hb]
      cases n with
      | zero =>
        rw [show (0 : Nat) - 1 = 0 from rfl]
        exact dappend_curModel_zero numpix hnp (3 :: D)
      | succ m =>
        rw [show m + 1 - 1 = m from rfl]
        exact dappend_curModel_succ numpix hnp (3 :: D) m
    · rw [h2, hcur, Nat.add_sub_cancel]
    · rw [h3, List.getD_cons_succ]

theorem searchStep_cases (numpix numcol : Nat) (pattern : List Nat)
    (s : SearchState) (pos d : Nat) (intr : Bool) :
    ((searchStep numpix numcol pattern s pos d intr).index = s.index
      ∧ (searchStep numpix numcol pattern s pos d intr).bestbytes = s.bestbytes
      ∧ (searchStep numpix numcol pattern s pos d intr).minmisrpt = s.minmisrpt)
    ∨ (s.done = false
        ∧ ¬ (dappend numpix s.other (s.oldhalf * 16 + d)).length < numpix
        ∧ scoreLt (countmismatch (bytarr numcol
            (dappend numpix s.other (s.oldhalf * 16 + d)) pattern)) s.minmisrpt
        ∧ (searchStep numpix numcol pattern s pos d intr).index
            = some ((pos : Int) - 2 * numpix + 1)
        ∧ (searchStep numpix numcol pattern s pos d intr).bestbytes
            = dappend numpix s.other (s.oldhalf * 16 + d)) := by
  unfold searchStep
  by_cases hdone : s.done = true
  · rw [if_pos hdone]
    exact Or.inl ⟨rfl, rfl, rfl⟩
  · rw [if_neg hdone]
    dsimp only
    by_cases hfull : (dappend numpix s.other (s.oldhalf * 16 + d)).length < numpix
    · rw [if_pos hfull]
      exact Or.inl ⟨rfl, rfl, rfl⟩
    · rw [if_neg hfull]
      by_cases himp : scoreLt (countmismatch (bytarr numcol
          (dappend numpix s.other (s.oldhalf * 16 + d)) pattern)) s.minmisrpt
      · rw [if_pos himp]
        exact Or.inr ⟨by simpa using hdone, hfull, himp, rfl, rfl⟩
      · rw [if_neg himp]
        exact Or.inl ⟨rfl, rfl, rfl⟩

/-- Characterization of a best-tracker update at step n: the update can
only happen on a full window that strictly improves the score, the offset
recorded is n - 2*numpix + 1, and the recorded bytes are the 2*numpix hex
digits at 1-indexed positions n + 2 - 2*numpix .. n + 1. -/
theorem improvement_char (numpix numcol : Nat) (pattern : List Nat)
    (intr : Nat → Bool) (D : List Nat) (hnp : 1 ≤ numpix) {n : Nat}
    (hn : n < D.length)
    (hupd : (searchStep numpix numcol pattern
        (searchRun numpix numcol pattern intr (D.take n)) n (D.getD n 0)
        (intr n)).index
      ≠ (searchRun numpix numcol pattern intr (D.take n)).index) :
    2 * numpix ≤ n + 2
      ∧ (searchStep numpix numcol pattern
          (searchRun numpix numcol pattern intr (D.take n)) n (D.getD n 0)
          (intr n)).index = some ((n : Int) - 2 * numpix + 1)
      ∧ (searchStep numpix numcol pattern
          (searchRun numpix numcol pattern intr (D.take n)) n (D.getD n 0)
          (intr n)).bestbytes
        = (List.range numpix).map
            (fun k => byteAt (3 :: D) (n + 2 - 2 * numpix + 2 * k)) := by
  rcases searchStep_cases numpix numcol pattern
      (searchRun numpix numcol pattern intr (D.take n)) n (D.getD n 0) (intr n)
    with h | h
  · exact absurd h.1 hupd
  · obtain ⟨hdone, hfull, himp, hidx, hbest⟩ := h
    obtain ⟨hcur, hoth, hold⟩ :=
      searchRun_window_inv numpix numcol pattern intr D hnp n (Nat.le_of_lt hn) hdone
    have hb : (searchRun numpix numcol pattern intr (D.take n)).oldhalf * 16
        + D.getD n 0 = byteAt (3 :: D) n := by
      rw [hold]
      unfold byteAt
      rw [List.getD_cons_succ]
    have hnew : dappend numpix
        (searchRun numpix numcol pattern intr (D.take n)).other
        ((searchRun numpix numcol pattern intr (D.take n)).oldhalf * 16
          + D.getD n 0)
        = curModel numpix (3 :: D) (n + 1) := by
      rw [hoth, hb]
      cases n with
      | zero =>
        rw [show (0 : Nat) - 1 = 0 from rfl]
        exact dappend_curModel_zero numpix hnp (3 :: D)
      | succ m =>
        rw [show m + 1 - 1 = m from rfl]
        exact dappend_curModel_succ numpix hnp (3 :: D) m
    rw [hnew] at hfull
    rw [curModel_length] at hfull
    have h2np : 2 * numpix ≤ n + 2 := by omega
    refine ⟨h2np, hidx, ?_⟩
    rw [hbest, hnew]
    unfold curModel
    rw [show min numpix ((n + 1 + 1) / 2) = numpix from by omega]

/-! ## Reported result and final report -/

/-- The hex-digit citation printed by the closing message of pifind.py for
a recorded offset: the ordinals index + 1 through index + 2*numpix. -/
def reportDigits (i : Int) (numpix : Nat) : Int × Int := (i + 1, i + 2 * numpix)

/-- The bit citation printed by the closing message of pifind.py: the
ordinals 4*index + 1 through 4*index + 8*numpix. -/
def reportBits (i : Int) (numpix : Nat) : Int × Int := (4 * i + 1, 4 * i + 8 * numpix)

/-- The final report of a run: the positional citation derived from the
recorded offset, or none when no window was ever scored (the Python
sys.exit then raises NameError on the unbound index). -/
def finalReport (numpix : Nat) (s : SearchState) : Option ((Int × Int) × (Int × Int)) :=
  s.index.map (fun i => (reportDigits i numpix, reportBits i numpix))

/-- C2 (amended): whenever a full window strictly improves the best score
at step n, the recorded offset is n - 2*numpix + 1, which is one less than
the 1-indexed hex-digit position n + 2 - 2*numpix of the first digit of
the matched window (equivalently, the number of hex digits preceding the
window); the reported hex-digit range (offset+1, offset+2*numpix) is
exactly the inclusive range of the 1-indexed positions of the 2*numpix
digits spanned by the window, and the reported bit range
(4*offset+1, 4*offset+8*numpix) is exactly the inclusive range of the
8*numpix bits of those digits. -/
theorem c2_offset_and_ranges (numpix numcol : Nat) (pattern : List Nat)
    (intr : Nat → Bool) (D : List Nat) (hnp : 1 ≤ numpix) {n : Nat}
    (hn : n < D.length)
    (hupd : (searchStep numpix numcol pattern
        (searchRun numpix numcol pattern intr (D.take n)) n (D.getD n 0)
        (intr n)).index
      ≠ (searchRun numpix numcol pattern intr (D.take n)).index) :
    2 * numpix ≤ n + 2
      ∧ (searchStep numpix numcol pattern
          (searchRun numpix numcol pattern intr (D.take n)) n (D.getD n 0)
          (intr n)).index = some ((n : Int) - 2 * numpix + 1)
      ∧ (searchStep numpix numcol pattern
          (searchRun numpix numcol pattern intr (D.take n)) n (D.getD n 0)
          (intr n)).bestbytes
        = (List.range numpix).map
            (fun k => byteAt (3 :: D) (n + 2 - 2 * numpix + 2 * k))
      ∧ reportDigits ((n : Int) - 2 * numpix + 1) numpix
          = (((n + 2 - 2 * numpix : Nat) : Int), ((n + 1 : Nat) : Int))
      ∧ reportBits ((n : Int) - 2 * numpix + 1) numpix
          = (4 * ((n + 2 - 2 * numpix : Nat) : Int) - 3, 4 * ((n + 1 : Nat) : Int)) := by
  obtain ⟨h2np, hidx, hbest⟩ :=
    improvement_char numpix numcol pattern intr D hnp hn hupd
  refine ⟨h2np, hidx, hbest, ?_, ?_⟩
  · simp only [reportDigits, Prod.mk.injEq]
    constructor <;> omega
  · simp only [reportBits, Prod.mk.injEq]
    constructor <;> omega

/-- C2 counterexample: on the run over the nibbles 5, 3, 5, 6 with the
two-pixel pattern 0 1 the final best window consists of the hex digits at
1-indexed positions 1 through 4, so the 1-indexed position of its first
digit is 1, but the recorded offset is 0. -/
theorem c2_counterexample :
    (searchRun 2 2 [0, 1] (fun _ => false) [5, 3, 5, 6]).bestbytes
        = (List.range 2).map (fun k => byteAt (3 :: [5, 3, 5, 6]) (1 + 2 * k))
      ∧ (searchRun 2 2 [0, 1] (fun _ => false) [5, 3, 5, 6]).index = some 0
      ∧ (searchRun 2 2 [0, 1] (fun _ => false) [5, 3, 5, 6]).index ≠ some 1 := by
  decide

/-- Witness for C2 at the run over the nibbles 5, 3, 5, 6, where the
improvement at step 3 records offset 0 for the window of digits 1..4. -/
theorem c2_offset_and_ranges_witness :
    ((searchStep 2 2 [0, 1]
        (searchRun 2 2 [0, 1] (fun _ => false) ([5, 3, 5, 6].take 3)) 3
        ([5, 3, 5, 6].getD 3 0) ((fun _ : Nat => false) 3)).index
      ≠ (searchRun 2 2 [0, 1] (fun _ => false) ([5, 3, 5, 6].take 3)).index)
    ∧ (2 * 2 ≤ 3 + 2
      ∧ (searchStep 2 2 [0, 1]
          (searchRun 2 2 [0, 1] (fun _ => false) ([5, 3, 5, 6].take 3)) 3
          ([5, 3, 5, 6].getD 3 0) ((fun _ : Nat => false) 3)).index
          = some ((3 : Int) - 2 * 2 + 1)
      ∧ (searchStep 2 2 [0, 1]
          (searchRun 2 2 [0, 1] (fun _ => false) ([5, 3, 5, 6].take 3)) 3
          ([5, 3, 5, 6].getD 3 0) ((fun _ : Nat => false) 3)).bestbytes
          = (List.range 2).map
              (fun k => byteAt (3 :: [5, 3, 5, 6]) (3 + 2 - 2 * 2 + 2 * k))
      ∧ reportDigits ((3 : Int) - 2 * 2 + 1) 2
          = (((3 + 2 - 2 * 2 : Nat) : Int), ((3 + 1 : Nat) : Int))
      ∧ reportBits ((3 : Int) - 2 * 2 + 1) 2
          = (4 * ((3 + 2 - 2 * 2 : Nat) : Int) - 3, 4 * ((3 + 1 : Nat) : Int))) :=
  ⟨by decide,
    c2_offset_and_ranges 2 2 [0, 1] (fun _ => false) [5, 3, 5, 6]
      (by omega) (by decide) (by decide)⟩

theorem runFrom_done_frozen (numpix numcol : Nat) (pattern : List Nat)
    (intr : Nat → Bool) :
    ∀ (L : List Nat) (s : SearchState) (pos : Nat), s.done = true →
      runFrom numpix numcol pattern intr s pos L = s := by
  intro L
  induction L with
  | nil => intro s pos _; rfl
  | cons d L ih =>
    intro s pos hdone
    show runFrom numpix numcol pattern intr
        (searchStep numpix numcol pattern s pos d (intr pos)) (pos + 1) L = s
    rw [searchStep_done_eq numpix numcol pattern s pos d (intr pos) hdone]
    exact ih s (pos + 1) hdone

/-- Where the final recorded offset comes from: some step n of the run
updated the tracker, the offset is n - 2*numpix + 1, and the recorded
window is the 2*numpix digits ending at 1-indexed position n + 1. -/
theorem index_provenance (numpix numcol : Nat) (pattern : List Nat)
    (intr : Nat → Bool) (D : List Nat) (hnp : 1 ≤ numpix) :
    ∀ N, N ≤ D.length → ∀ i : Int,
      (searchRun numpix numcol pattern intr (D.take N)).index = some i →
      ∃ n, n < N ∧ i = (n : Int) - 2 * numpix + 1 ∧ 2 * numpix ≤ n + 2
        ∧ (searchRun numpix numcol pattern intr (D.take N)).bestbytes
            = (List.range numpix).map
                (fun k => byteAt (3 :: D) (n + 2 - 2 * numpix + 2 * k)) := by
  intro N
  induction N with
  | zero =>
    intro _ i h
    exact absurd h (by simp [searchRun, runFrom, initState])
  | succ N ih =>
    intro hN1 i hidx
    have hN : N < D.length := by omega
    rw [searchRun_take_succ numpix numcol pattern intr D hN] at hidx ⊢
    by_cases hch : (searchStep numpix numcol pattern
        (searchRun numpix numcol pattern intr (D.take N)) N (D.getD N 0)
        (intr N)).index
      = (searchRun numpix numcol pattern intr (D.take N)).index
    · rcases searchStep_cases numpix numcol pattern
          (searchRun numpix numcol pattern intr (D.take N)) N (D.getD N 0)
          (intr N) with hsame | hupd2
      · rw [hsame.1] at hidx
        obtain ⟨n, hn, hif, h2, hbb⟩ := ih (by omega) i hidx
        exact ⟨n, by omega, hif, h2, by rw [hsame.2.1]; exact hbb⟩
      · exfalso
        have hold : (searchRun numpix numcol pattern intr (D.take N)).index
            = some ((N : Int) - 2 * numpix + 1) := by
          rw [← hch]
          exact hupd2.2.2.2.1
        obtain ⟨n, hn, hif, _, _⟩ := ih (by omega) _ hold
        omega
    · obtain ⟨h2np, hidxN, hbestN⟩ :=
        improvement_char numpix numcol pattern intr D hnp hN hch
      rw [hidxN] at hidx
      have hi : i = (N : Int) - 2 * numpix + 1 := by
        have := Option.some.inj hidx
        omega
      exact ⟨N, by omega, hi, h2np, by rw [hbestN]⟩

/-- C6 (amended): the run over any finite digit stream, with any interrupt
pattern, terminates: once the loop flag is set at some prefix the rest of
the stream leaves the state unchanged, and that frozen state is the final
one.  Provided at least one full window was scored (the recorded offset
exists, which holds whenever the stream is long enough to fill a window),
the final report cites the hex-digit range (offset+1 .. offset+2*numpix)
and the bit range (4*offset+1 .. 4*offset+8*numpix), and these are exactly
the digit and bit spans of the recorded best window; a run whose stream
ends before any window fills has no recorded offset and produces no report
(the Python sys.exit raises NameError on the unbound index). -/
theorem c6_exhaustion_interrupt_report (numpix numcol : Nat) (pattern : List Nat)
    (intr : Nat → Bool) (D : List Nat) (hnp : 1 ≤ numpix) :
    (∀ n, n ≤ D.length →
        (searchRun numpix numcol pattern intr (D.take n)).done = true →
        searchRun numpix numcol pattern intr D
          = searchRun numpix numcol pattern intr (D.take n))
      ∧ (∀ i : Int, (searchRun numpix numcol pattern intr D).index = some i →
          finalReport numpix (searchRun numpix numcol pattern intr D)
              = some ((i + 1, i + 2 * numpix), (4 * i + 1, 4 * i + 8 * numpix))
            ∧ ∃ n, n < D.length ∧ i = (n : Int) - 2 * numpix + 1
                ∧ 2 * numpix ≤ n + 2
                ∧ (searchRun numpix numcol pattern intr D).bestbytes
                    = (List.range numpix).map
                        (fun k => byteAt (3 :: D) (n + 2 - 2 * numpix + 2 * k))) := by
  constructor
  · intro n hn hdone
    conv_lhs => rw [show D = D.take n ++ D.drop n from (List.take_append_drop n D).symm]
    unfold searchRun
    rw [runFrom_append, show (0 : Nat) + (D.take n).length = n from by
      rw [List.length_take]
      omega]
    exact runFrom_done_frozen numpix numcol pattern intr (D.drop n) _ n hdone
  · intro i hidx
    constructor
    · unfold finalReport reportDigits reportBits
      rw [hidx]
      rfl
    · obtain ⟨n, hn, hif, h2, hbb⟩ :=
        index_provenance numpix numcol pattern intr D hnp D.length (le_refl _) i
          (by rw [List.take_length]; exact hidx)
      rw [List.take_length] at hbb
      exact ⟨n, hn, hif, h2, hbb⟩

/-- C6 counterexample: a finite stream exhausted before any window fills
(here the empty stream) leaves the offset unrecorded, and the final report
does not exist: the claim that every run ending by exhaustion reports the
best result with its positional citation fails on it. -/
theorem c6_counterexample :
    (searchRun 1 1 [0] (fun _ => false) []).index = none
      ∧ finalReport 1 (searchRun 1 1 [0] (fun _ => false) []) = none :=
  ⟨rfl, rfl⟩

/-- Witness for C6 at the run over the nibbles 5, 3, 5, 6. -/
theorem c6_exhaustion_interrupt_report_witness :
    (searchRun 2 2 [0, 1] (fun _ => false) [5, 3, 5, 6]).index = some 0
    ∧ (finalReport 2 (searchRun 2 2 [0, 1] (fun _ => false) [5, 3, 5, 6])
          = some ((0 + 1, 0 + 2 * 2), (4 * 0 + 1, 4 * 0 + 8 * 2))
        ∧ ∃ n, n < [5, 3, 5, 6].length ∧ (0 : Int) = (n : Int) - 2 * 2 + 1
            ∧ 2 * 2 ≤ n + 2
            ∧ (searchRun 2 2 [0, 1] (fun _ => false) [5, 3, 5, 6]).bestbytes
                = (List.range 2).map
                    (fun k => byteAt (3 :: [5, 3, 5, 6]) (n + 2 - 2 * 2 + 2 * k))) :=
  ⟨by decide,
    (c6_exhaustion_interrupt_report 2 2 [0, 1] (fun _ => false) [5, 3, 5, 6]
      (by omega)).2 0 (by decide)⟩

/-! ## Checkpoint palette and the haystack blackness check -/

/-- Embeds makepalette of pifind.py: each byte value maps to the weighted
average of the colors it was counted against (the dictionary zip of the
color list with the histogram row of that byte). -/
def makepalette (arr : List (List Nat)) (colors : List Color) : List Color :=
  arr.map (fun b => colavg (colors.zip b))

/-- Embeds the palette check of haystack.py: the set of palette entries at
the unused byte values equals the singleton black, that is, the unused
list is nonempty and every unused entry is exactly (0, 0, 0); only then
does haystack reassign those entries to web-safe colors. -/
def allUnusedBlack (pal : List Color) (unused : List Nat) : Bool :=
  !unused.isEmpty
    && unused.all (fun u => decide (pal.getD u (255, 255, 255) = (0, 0, 0)))

theorem colavg_zero {wts : List (Color × Nat)} (h : ∀ q ∈ wts, q.2 = 0) :
    colavg wts = (0, 0, 0) := by
  have htot : (wts.map Prod.snd).sum = 0 := by
    refine List.sum_eq_zero ?_
    intro x hx
    obtain ⟨q, hq, rfl⟩ := List.mem_map.mp hx
    exact h q hq
  unfold colavg
  rw [htot]
  simp

/-- C10: in every checkpoint palette created by makepalette from the joint
histogram of a window, each byte value b below 256 that does not occur in
the window has an all-zero histogram row, so the zero-total fallback of
colavg maps it to black (0, 0, 0); consequently the blackness test that
haystack.py performs on the unused palette entries succeeds on any
nonempty list of such byte values. -/
theorem c10_unused_palette_black (numcol : Nat) (colors : List Color)
    (W P : List Nat) :
    (∀ b : Nat, b < 256 → b ∉ W →
        (makepalette (bytarr numcol W P) colors).getD b (255, 255, 255)
          = (0, 0, 0))
      ∧ (∀ unused : List Nat, unused ≠ [] → (∀ u ∈ unused, u < 256 ∧ u ∉ W) →
          allUnusedBlack (makepalette (bytarr numcol W P) colors) unused
            = true) := by
  have hmain : ∀ b : Nat, b < 256 → b ∉ W →
      (makepalette (bytarr numcol W P) colors).getD b (255, 255, 255)
        = (0, 0, 0) := by
    intro b hb hbW
    unfold makepalette
    have hlen : b < (bytarr numcol W P).length := by
      rw [bytarr_length]
      exact hb
    rw [getD_of_lt _ b _ (by rw [List.length_map]; exact hlen), List.getElem_map,
      ← getD_of_lt _ b [] hlen, bytarr_row numcol W P hb]
    have hcnt : ∀ p, countBP W P b p = 0 := by
      intro p
      unfold countBP
      rw [List.length_eq_zero, List.filter_eq_nil_iff]
      rintro ⟨x, y⟩ hq
      have hx : x ∈ W := (List.of_mem_zip hq).1
      intro hpred
      rw [Bool.and_eq_true, beq_iff_eq, beq_iff_eq] at hpred
      exact hbW (hpred.1 ▸ hx)
    refine colavg_zero ?_
    intro q hq
    have hsnd : q.2 ∈ (List.range numcol).map (countBP W P b) := by
      obtain ⟨x, y⟩ := q
      exact (List.of_mem_zip hq).2
    obtain ⟨p, _, hp⟩ := List.mem_map.mp hsnd
    rw [← hp, hcnt p]
  refine ⟨hmain, ?_⟩
  intro unused hne hprop
  unfold allUnusedBlack
  rw [Bool.and_eq_true]
  constructor
  · have hie : unused.isEmpty = false := by
      cases unused with
      | nil => exact absurd rfl hne
      | cons _ _ => rfl
    rw [hie]
    rfl
  · rw [List.all_eq_true]
    intro u hu
    exact decide_eq_true (hmain u (hprop u hu).1 (hprop u hu).2)

/-- Witness for C10 at a concrete window, pattern and unused byte. -/
theorem c10_unused_palette_black_witness :
    ((7 : Nat) < 256 ∧ (7 : Nat) ∉ [(0 : Nat)])
      ∧ (makepalette (bytarr 1 [0] [0]) [(9, 9, 9)]).getD 7 (255, 255, 255)
          = (0, 0, 0)
      ∧ allUnusedBlack (makepalette (bytarr 1 [0] [0]) [(9, 9, 9)]) [7] = true :=
  ⟨⟨by omega, by decide⟩,
    (c10_unused_palette_black 1 [(9, 9, 9)] [0] [0]).1 7 (by omega) (by decide),
    (c10_unused_palette_black 1 [(9, 9, 9)] [0] [0]).2 [7] (by decide)
      (by decide)⟩
